import Mathlib

/-!
Verification of the quote comparison and normalization engine of the
QuoteStack application, as implemented in
`frontend/app/deals/[id]/page.tsx`.

The TypeScript source keeps monetary amounts as exact decimal strings and
parses them with the arbitrary-precision `decimal.js` library.  A finite
`decimal.js` value is a sign, a digit string and a base-ten exponent; we
embed such values as an integer mantissa `num` together with a scale
`scale`, denoting the rational number `num / 10 ^ scale`.  Comparisons are
the exact numeric comparisons of `decimal.js` (`lessThan`, `lte`,
`comparedTo`, `equals`), realized by cross-multiplied integer
comparisons, so for example `100` and `100.00` are numerically equal even
though their representations differ.

JavaScript numbers (`leadTimeDays`, `moq`) are likewise modelled as exact
decimals, which is faithful for the integer-valued inputs the
application produces.
-/

namespace QuoteStack

/-- A finite `decimal.js` value: the rational number `num / 10 ^ scale`. -/
structure Dec where
  num : Int
  scale : Nat
deriving DecidableEq

/-- Power of ten, written recursively so that the kernel evaluates it. -/
def pow10 : Nat → Int
  | 0 => 1
  | n + 1 => 10 * pow10 n

/-- The `decimal.js` value `0` (as produced by `new Decimal(0)`). -/
def dZero : Dec := ⟨0, 0⟩

/-- Exact numeric strict order on decimals: `a.lessThan(b)` in `decimal.js`. -/
def Dec.lt (a b : Dec) : Prop := a.num * pow10 b.scale < b.num * pow10 a.scale

/-- Exact numeric weak order on decimals: `a.lte(b)` in `decimal.js`. -/
def Dec.le (a b : Dec) : Prop := a.num * pow10 b.scale ≤ b.num * pow10 a.scale

/-- Exact numeric equality on decimals: `a.equals(b)` in `decimal.js`. -/
def Dec.eq (a b : Dec) : Prop := a.num * pow10 b.scale = b.num * pow10 a.scale

instance (a b : Dec) : Decidable (Dec.lt a b) := by unfold Dec.lt; infer_instance

instance (a b : Dec) : Decidable (Dec.le a b) := by unfold Dec.le; infer_instance

instance (a b : Dec) : Decidable (Dec.eq a b) := by unfold Dec.eq; infer_instance

/-- Whitespace as removed by JavaScript `String.prototype.trim` (the
ASCII part, which is all the application's inputs contain). -/
def isWS (c : Char) : Bool := c = ' ' || c = '\t' || c = '\n' || c = '\r'

/-- JavaScript `value.trim()`: strip whitespace from both ends. -/
def trimChars (l : List Char) : List Char :=
  ((l.dropWhile isWS).reverse.dropWhile isWS).reverse

/-- Numeric value of a digit string (most significant digit first). -/
def digitsToNat (l : List Char) : Nat :=
  l.foldl (fun a c => 10 * a + (c.toNat - 48)) 0

/-- Split a numeric literal at the first exponent marker `e`/`E`,
returning the mantissa text and, when present, the exponent text. -/
def splitExp : List Char → List Char × Option (List Char)
  | [] => ([], none)
  | c :: r =>
    if c = 'e' || c = 'E' then ([], some r)
    else
      match splitExp r with
      | (m, e) => (c :: m, e)

/-- Consume an optional leading sign. -/
def takeSign : List Char → Int × List Char
  | '+' :: r => (1, r)
  | '-' :: r => (-1, r)
  | r => (1, r)

/-- Parse a signed decimal mantissa `[+-]?digits[.digits]?`; at least one
digit must be present and nothing may follow. -/
def parseMantissa (l : List Char) : Option Dec :=
  match takeSign l with
  | (sgn, r) =>
    let intPart := r.takeWhile Char.isDigit
    let rest := r.dropWhile Char.isDigit
    match rest with
    | [] =>
      if intPart.isEmpty then none
      else some ⟨sgn * (digitsToNat intPart : Int), 0⟩
    | '.' :: fr =>
      let fracPart := fr.takeWhile Char.isDigit
      let rest2 := fr.dropWhile Char.isDigit
      if rest2.isEmpty && !(intPart.isEmpty && fracPart.isEmpty) then
        some ⟨sgn * (digitsToNat (intPart ++ fracPart) : Int), fracPart.length⟩
      else none
    | _ => none

/-- Parse a signed integer exponent `[+-]?digits`. -/
def parseExpText (l : List Char) : Option Int :=
  match takeSign l with
  | (sgn, r) =>
    if r.isEmpty || !(r.all Char.isDigit) then none
    else some (sgn * (digitsToNat r : Int))

/-- Scale a decimal by `10 ^ e`, exactly. -/
def applyExp (d : Dec) (e : Int) : Dec :=
  if 0 ≤ e then ⟨d.num * pow10 e.toNat, d.scale⟩
  else ⟨d.num, d.scale + e.natAbs⟩

/-- The finite base-ten literals accepted by the `decimal.js`
constructor: `[+-]?digits[.digits]?([eE][+-]?digits)?` (with at least one
mantissa digit).  Returns `none` where `new Decimal(text)` throws. -/
def parseDecCore (l : List Char) : Option Dec :=
  match splitExp l with
  | (m, none) => parseMantissa m
  | (m, some ex) =>
    match parseMantissa m, parseExpText ex with
    | some d, some e => some (applyExp d e)
    | _, _ => none

/-- `parseDecimal` from `frontend/app/deals/[id]/page.tsx` lines 22-30:
trim the input (treating a missing string as empty); an empty result is
`null`; otherwise construct a `Decimal`, with a constructor throw caught
and turned into `null`. -/
def parseDecimal (value : Option String) : Option Dec :=
  match value with
  | none => none
  | some s =>
    let t := trimChars s.toList
    if t.isEmpty then none else parseDecCore t

/-- One row of the quote table (`QuoteRow` in the source): a quote's
editable fields plus the cached normalization results. -/
structure QuoteRow where
  id : Option Nat := none
  supplier : String
  price : String
  currency : String
  amountBase : Option String
  baseCurrency : String
  fxRate : Option String
  fxDate : Option String
  leadTimeDays : Dec
  moq : Dec
deriving DecidableEq

/-- JavaScript truthiness of a string: the empty string is falsy. -/
def jsTruthyStr (s : String) : Bool := !(s == "")

/-- JavaScript truthiness of a nullable string field. -/
def jsTruthyOptStr : Option String → Bool
  | none => false
  | some s => !(s == "")

/-- JavaScript truthiness of a nullable numeric id (`0` is falsy). -/
def jsTruthyId : Option Nat → Bool
  | none => false
  | some n => !(n == 0)

/-- `createBlankRow` from the source (lines 39-49): the draft row
appended after the saved quotes. -/
def createBlankRow (currency : String) : QuoteRow :=
  { id := none
    supplier := ""
    price := ""
    currency := currency
    amountBase := none
    baseCurrency := currency
    fxRate := none
    fxDate := none
    leadTimeDays := dZero
    moq := dZero }

/-- `getNormalizedAmount` from the source (lines 343-347): in the deal's
base currency the raw price is used, falling back to the cached
`amountBase` when the price is blank (`row.price || row.amountBase`); in
a foreign currency the cached `amountBase` is used when present;
otherwise there is no normalized amount. -/
def getNormalizedAmount (dealCurrency : String) (row : QuoteRow) : Option String :=
  if row.currency = dealCurrency then
    (if jsTruthyStr row.price then some row.price else row.amountBase)
  else if jsTruthyOptStr row.amountBase then row.amountBase
  else none

/-- `activeRows` from the source (lines 349-352): a row participates in
comparison when it has a supplier name, a price text, or a persisted id. -/
def activeRows (rows : List QuoteRow) : List QuoteRow :=
  rows.filter (fun row => jsTruthyStr row.supplier || jsTruthyStr row.price || jsTruthyId row.id)

/-- The price list built inside `bestPrice` (lines 355-357): parsed
normalized amounts of active rows, keeping only values strictly greater
than zero. -/
def pricesOf (dealCurrency : String) (rows : List QuoteRow) : List Dec :=
  (activeRows rows).filterMap (fun row =>
    match parseDecimal (getNormalizedAmount dealCurrency row) with
    | none => none
    | some v => if Dec.lt dZero v then some v else none)

/-- `bestPrice` from the source (lines 354-360): `null` when no usable
positive price exists, otherwise the `reduce`-computed minimum
(`value.lessThan(min) ? value : min`). -/
def bestPrice (dealCurrency : String) (rows : List QuoteRow) : Option Dec :=
  match pricesOf dealCurrency rows with
  | [] => none
  | p :: ps => some (ps.foldl (fun m v => if Dec.lt v m then v else m) p)

/-- The lead-time list built inside `bestLeadTime` (line 362): lead times
of active rows strictly greater than zero. -/
def leadTimesOf (rows : List QuoteRow) : List Dec :=
  ((activeRows rows).map (fun row => row.leadTimeDays)).filter (fun v => Dec.lt dZero v)

/-- JavaScript `Math.min` on two numbers. -/
def jsMin (a b : Dec) : Dec := if Dec.lt b a then b else a

/-- `bestLeadTime` from the source (lines 361-364): `Math.min` over the
positive lead times of active rows, or no value when there are none. -/
def bestLeadTime (rows : List QuoteRow) : Option Dec :=
  match leadTimesOf rows with
  | [] => none
  | x :: xs => some (xs.foldl jsMin x)

/-- A best-value candidate (the anonymous `{ index, amount, leadTimeDays }`
object of lines 368-372): `index` is the row's position in `activeRows`. -/
structure Cand where
  index : Nat
  amount : Dec
  leadTimeDays : Dec
deriving DecidableEq

/-- The candidate list of `bestValueIndex` (lines 367-373): active rows
with a parsed normalized amount, dropping those with `amount.lte(0)` or
`leadTimeDays <= 0`. -/
def candidatesOf (dealCurrency : String) (rows : List QuoteRow) : List Cand :=
  (activeRows rows).enum.filterMap (fun p =>
    match parseDecimal (getNormalizedAmount dealCurrency p.2) with
    | none => none
    | some a =>
      if Dec.le a dZero ∨ Dec.le p.2.leadTimeDays dZero then none
      else some ⟨p.1, a, p.2.leadTimeDays⟩)

/-- Stable insertion into a sorted list, placing the new element before
the first element it is `le`-below-or-equal to. -/
def insertSorted (le : α → α → Bool) (x : α) : List α → List α
  | [] => [x]
  | y :: ys => if le x y then x :: y :: ys else y :: insertSorted le x ys

/-- Stable sort, modelling ES2019 `Array.prototype.sort` with an exact
numeric comparator: any stable sort yields this same output. -/
def sortBy (le : α → α → Bool) : List α → List α
  | [] => []
  | x :: xs => insertSorted le x (sortBy le xs)

/-- The `byPrice` array of line 377: candidates sorted ascending by
normalized amount (`a.amount.comparedTo(b.amount)`), stably. -/
def byPriceOf (dealCurrency : String) (rows : List QuoteRow) : List Cand :=
  sortBy (fun a b => decide (Dec.le a.amount b.amount)) (candidatesOf dealCurrency rows)

/-- The `byLeadTime` array of line 378: candidates sorted ascending by
lead time (`a.leadTimeDays - b.leadTimeDays`), stably. -/
def byLeadTimeOf (dealCurrency : String) (rows : List QuoteRow) : List Cand :=
  sortBy (fun a b => decide (Dec.le a.leadTimeDays b.leadTimeDays)) (candidatesOf dealCurrency rows)

/-- Rank lookup (lines 380-381 and 387): the position of the candidate
with row index `i` in a sorted candidate list, with the `?? 0` default of
the source for an absent key. -/
def rankOf (sorted : List Cand) (i : Nat) : Nat :=
  match sorted.findIdx? (fun c => c.index == i) with
  | some r => r
  | none => 0

/-- The score of line 387: price rank plus lead-time rank. -/
def scoreOf (dealCurrency : String) (rows : List QuoteRow) (i : Nat) : Nat :=
  rankOf (byPriceOf dealCurrency rows) i + rankOf (byLeadTimeOf dealCurrency rows) i

/-- The selection loop of lines 383-392: starting from a current best row
index and score, replace the best on a strictly smaller score. -/
def selectAux (score : Nat → Nat) : List Cand → Nat → Nat → Nat
  | [], bi, _ => bi
  | c :: cs, bi, bs =>
    if score c.index < bs then selectAux score cs c.index (score c.index)
    else selectAux score cs bi bs

/-- `bestValueIndex` from the source (lines 366-395): `null` without
candidates; otherwise the loop over the candidates (the first candidate
always beats the initial `Infinity` score). -/
def bestValueIndex (dealCurrency : String) (rows : List QuoteRow) : Option Nat :=
  match candidatesOf dealCurrency rows with
  | [] => none
  | c :: cs =>
    some (selectAux (scoreOf dealCurrency rows) cs c.index (scoreOf dealCurrency rows c.index))

/-- The id list sent to the comparison endpoint (fetchData line 203):
`rows.map(row => row.id!).filter(id => typeof id === "number")`. -/
def quoteIdsOf (rows : List QuoteRow) : List Nat :=
  rows.filterMap (fun row => row.id)

/-- The quote-row fields the deal page edits through `updateRow`. -/
inductive RowKey
  | supplier
  | price
  | currency
  | leadTimeDays
  | moq
deriving DecidableEq

/-- JavaScript `Number(value) || 0` for the decimal text produced by the
numeric inputs: unparsable or empty text (and `NaN`) collapses to `0`. -/
def jsNumOr0 (s : String) : Dec :=
  match parseDecimal (some s) with
  | none => dZero
  | some d => d

/-- The per-row update of `updateRow` (lines 327-339): editing the price
or the currency also clears the cached `amountBase`, `fxRate` and
`fxDate`; numeric fields go through `Number(value) || 0`. -/
def updateField (row : QuoteRow) (key : RowKey) (value : String) : QuoteRow :=
  match key with
  | .price => { row with price := value, amountBase := none, fxRate := none, fxDate := none }
  | .currency => { row with currency := value, amountBase := none, fxRate := none, fxDate := none }
  | .leadTimeDays => { row with leadTimeDays := jsNumOr0 value }
  | .moq => { row with moq := jsNumOr0 value }
  | .supplier => { row with supplier := value }

/-- Helper for `updateRow`: map over the rows with their position,
starting from position `n`. -/
def updateRowAux (n index : Nat) (key : RowKey) (value : String) : List QuoteRow → List QuoteRow
  | [] => []
  | r :: rs =>
    (if n = index then updateField r key value else r) :: updateRowAux (n + 1) index key value rs

/-- `updateRow` from the source (lines 325-341): rewrite the row at
`index`, leaving every other row unchanged. -/
def updateRow (rows : List QuoteRow) (index : Nat) (key : RowKey) (value : String) : List QuoteRow :=
  updateRowAux 0 index key value rows

/-- The one-shot comparison outputs recomputed from a snapshot of the
deal's base currency and quote rows (the three `useMemo` computations of
lines 354-395). -/
def runComparison (dealCurrency : String) (rows : List QuoteRow) :
    Option Dec × Option Dec × Option Nat :=
  (bestPrice dealCurrency rows, bestLeadTime rows, bestValueIndex dealCurrency rows)

theorem pow10_pos (n : Nat) : 0 < pow10 n := by
  induction n with
  | zero => simp [pow10]
  | succ n ih => simpa [pow10] using by positivity

theorem Dec.le_refl (a : Dec) : Dec.le a a := Int.le_refl _

theorem Dec.le_of_lt {a b : Dec} (h : Dec.lt a b) : Dec.le a b := Int.le_of_lt h

theorem Dec.le_of_not_lt {a b : Dec} (h : ¬ Dec.lt a b) : Dec.le b a := Int.not_lt.mp h

theorem Dec.lt_of_not_le {a b : Dec} (h : ¬ Dec.le a b) : Dec.lt b a := Int.not_le.mp h

theorem Dec.not_lt_of_eq {a b : Dec} (h : Dec.eq a b) : ¬ Dec.lt b a := by
  unfold Dec.eq at h
  unfold Dec.lt
  rw [h]
  exact lt_irrefl _

theorem Dec.le_trans {a b c : Dec} (h1 : Dec.le a b) (h2 : Dec.le b c) : Dec.le a c := by
  unfold Dec.le at h1 h2 ⊢
  have hb := pow10_pos b.scale
  have h1' := mul_le_mul_of_nonneg_right h1 (pow10_pos c.scale).le
  have h2' := mul_le_mul_of_nonneg_right h2 (pow10_pos a.scale).le
  have key : a.num * pow10 c.scale * pow10 b.scale ≤ c.num * pow10 a.scale * pow10 b.scale := by
    nlinarith [h1', h2']
  exact le_of_mul_le_mul_right key hb

theorem foldMin_mem (ps : List Dec) (p : Dec) :
    ps.foldl jsMin p = p ∨ ps.foldl jsMin p ∈ ps := by
  induction ps generalizing p with
  | nil => exact Or.inl rfl
  | cons v vs ih =>
    simp only [List.foldl_cons]
    rcases ih (jsMin p v) with h | h
    · by_cases hlt : Dec.lt v p
      · right
        rw [h]
        simp [jsMin, hlt]
      · left
        rw [h]
        simp [jsMin, hlt]
    · right
      exact List.mem_cons_of_mem _ h

theorem foldMin_le (ps : List Dec) (p : Dec) :
    Dec.le (ps.foldl jsMin p) p ∧ ∀ x ∈ ps, Dec.le (ps.foldl jsMin p) x := by
  induction ps generalizing p with
  | nil => exact ⟨Dec.le_refl p, by simp⟩
  | cons v vs ih =>
    simp only [List.foldl_cons]
    obtain ⟨hacc, hall⟩ := ih (jsMin p v)
    by_cases hlt : Dec.lt v p
    · have hjs : jsMin p v = v := by simp [jsMin, hlt]
      rw [hjs] at hacc hall ⊢
      refine ⟨Dec.le_trans hacc (Dec.le_of_lt hlt), ?_⟩
      intro x hx
      rcases List.mem_cons.mp hx with rfl | hx
      · exact hacc
      · exact hall x hx
    · have hjs : jsMin p v = p := by simp [jsMin, hlt]
      rw [hjs] at hacc hall ⊢
      refine ⟨hacc, ?_⟩
      intro x hx
      rcases List.mem_cons.mp hx with rfl | hx
      · exact Dec.le_trans hacc (Dec.le_of_not_lt hlt)
      · exact hall x hx

theorem selectAux_spec (score : Nat → Nat) (cs : List Cand) :
    ∀ bi : Nat,
      (selectAux score cs bi (score bi) = bi ∧ ∀ c ∈ cs, score bi ≤ score c.index) ∨
      (∃ k c, cs.get? k = some c ∧ selectAux score cs bi (score bi) = c.index ∧
        score c.index < score bi ∧
        (∀ x ∈ cs.take k, score c.index < score x.index) ∧
        (∀ x ∈ cs, score c.index ≤ score x.index)) := by
  induction cs with
  | nil =>
    intro bi
    left
    exact ⟨rfl, by simp⟩
  | cons c cs ih =>
    intro bi
    by_cases h : score c.index < score bi
    · have hsel : selectAux score (c :: cs) bi (score bi) =
          selectAux score cs c.index (score c.index) := by
        simp [selectAux, h]
      rcases ih c.index with ⟨heq, hall⟩ | ⟨k, c2, hget, heq, hlt2, htake, hall⟩
      · right
        refine ⟨0, c, rfl, hsel.trans heq, h, by simp, ?_⟩
        intro x hx
        rcases List.mem_cons.mp hx with rfl | hx
        · exact Nat.le_refl _
        · exact hall x hx
      · right
        refine ⟨k + 1, c2, hget, hsel.trans heq, Nat.lt_trans hlt2 h, ?_, ?_⟩
        · intro x hx
          rw [List.take_succ_cons] at hx
          rcases List.mem_cons.mp hx with rfl | hx
          · exact hlt2
          · exact htake x hx
        · intro x hx
          rcases List.mem_cons.mp hx with rfl | hx
          · exact Nat.le_of_lt hlt2
          · exact hall x hx
    · have hsel : selectAux score (c :: cs) bi (score bi) =
          selectAux score cs bi (score bi) := by
        simp [selectAux, h]
      rcases ih bi with ⟨heq, hall⟩ | ⟨k, c2, hget, heq, hlt2, htake, hall⟩
      · left
        refine ⟨hsel.trans heq, ?_⟩
        intro x hx
        rcases List.mem_cons.mp hx with rfl | hx
        · exact Nat.le_of_not_lt h
        · exact hall x hx
      · right
        refine ⟨k + 1, c2, hget, hsel.trans heq, hlt2, ?_, ?_⟩
        · intro x hx
          rw [List.take_succ_cons] at hx
          rcases List.mem_cons.mp hx with rfl | hx
          · exact Nat.lt_of_lt_of_le hlt2 (Nat.le_of_not_lt h)
          · exact htake x hx
        · intro x hx
          rcases List.mem_cons.mp hx with rfl | hx
          · exact Nat.le_of_lt (Nat.lt_of_lt_of_le hlt2 (Nat.le_of_not_lt h))
          · exact hall x hx

theorem bestValueIndex_eq_some {d : String} {rows : List QuoteRow} {i : Nat}
    (h : bestValueIndex d rows = some i) :
    ∃ k c, (candidatesOf d rows).get? k = some c ∧ c.index = i ∧
      (∀ x ∈ candidatesOf d rows, scoreOf d rows c.index ≤ scoreOf d rows x.index) ∧
      (∀ x ∈ (candidatesOf d rows).take k, scoreOf d rows c.index < scoreOf d rows x.index) := by
  unfold bestValueIndex at h
  cases hc : candidatesOf d rows with
  | nil => rw [hc] at h; cases h
  | cons c cs =>
    rw [hc] at h
    simp only [Option.some.injEq] at h
    rcases selectAux_spec (scoreOf d rows) cs c.index with ⟨heq, hall⟩ |
        ⟨k, c2, hget, heq, hlt2, htake, hall⟩
    · refine ⟨0, c, rfl, ?_, ?_, by simp⟩
      · rw [heq] at h; exact h
      · intro x hx
        rcases List.mem_cons.mp hx with rfl | hx
        · exact Nat.le_refl _
        · exact hall x hx
    · refine ⟨k + 1, c2, hget, ?_, ?_, ?_⟩
      · rw [heq] at h; exact h
      · intro x hx
        rcases List.mem_cons.mp hx with rfl | hx
        · exact Nat.le_of_lt hlt2
        · exact hall x hx
      · intro x hx
        rw [List.take_succ_cons] at hx
        rcases List.mem_cons.mp hx with rfl | hx
        · exact hlt2
        · exact htake x hx

theorem mem_candidatesOf {d : String} {rows : List QuoteRow} {c : Cand}
    (h : c ∈ candidatesOf d rows) :
    ∃ row, (activeRows rows).get? c.index = some row ∧
      parseDecimal (getNormalizedAmount d row) = some c.amount ∧
      Dec.lt dZero c.amount ∧ Dec.lt dZero row.leadTimeDays ∧
      c.leadTimeDays = row.leadTimeDays := by
  unfold candidatesOf at h
  rcases List.mem_filterMap.mp h with ⟨⟨i, row⟩, hmem, heq⟩
  obtain ⟨hlen, hrow⟩ := List.mem_enum hmem
  cases hp : parseDecimal (getNormalizedAmount d row) with
  | none => simp [hp] at heq
  | some a =>
    simp only [hp] at heq
    by_cases hcond : Dec.le a dZero ∨ Dec.le row.leadTimeDays dZero
    · simp [hcond] at heq
    · rw [if_neg hcond] at heq
      push_neg at hcond
      obtain ⟨ha, hlt⟩ := hcond
      injection heq with heq
      subst heq
      refine ⟨row, ?_, hp, Dec.lt_of_not_le ha, Dec.lt_of_not_le hlt, rfl⟩
      rw [List.get?_eq_getElem?, List.getElem?_eq_getElem hlen, hrow]

theorem bestValueIndex_winner {d : String} {rows : List QuoteRow} {i : Nat}
    (h : bestValueIndex d rows = some i) :
    ∃ row a, (activeRows rows).get? i = some row ∧
      parseDecimal (getNormalizedAmount d row) = some a ∧ Dec.lt dZero a := by
  obtain ⟨k, c, hget, hidx, -, -⟩ := bestValueIndex_eq_some h
  have hc : c ∈ candidatesOf d rows := List.get?_mem hget
  obtain ⟨row, hrowget, hp, hpos, -, -⟩ := mem_candidatesOf hc
  exact ⟨row, c.amount, hidx ▸ hrowget, hp, hpos⟩

theorem mem_pricesOf {d : String} {rows : List QuoteRow} {p : Dec} :
    p ∈ pricesOf d rows ↔ ∃ row ∈ activeRows rows,
      parseDecimal (getNormalizedAmount d row) = some p ∧ Dec.lt dZero p := by
  unfold pricesOf
  rw [List.mem_filterMap]
  constructor
  · rintro ⟨row, hrow, heq⟩
    cases hp : parseDecimal (getNormalizedAmount d row) with
    | none => simp [hp] at heq
    | some v =>
      simp only [hp] at heq
      by_cases hv : Dec.lt dZero v
      · rw [if_pos hv] at heq
        injection heq with heq
        subst heq
        exact ⟨row, hrow, hp, hv⟩
      · rw [if_neg hv] at heq
        cases heq
  · rintro ⟨row, hrow, hp, hpos⟩
    refine ⟨row, hrow, ?_⟩
    simp [hp, hpos]

theorem updateRowAux_get? (k : RowKey) (v : String) (rows : List QuoteRow) :
    ∀ (n j i : Nat),
      (updateRowAux n i k v rows).get? j =
        (rows.get? j).map (fun r => if n + j = i then updateField r k v else r) := by
  induction rows with
  | nil => intro n j i; rfl
  | cons r rs ih =>
    intro n j i
    cases j with
    | zero => simp [updateRowAux]
    | succ j =>
      have h1 : (updateRowAux n i k v (r :: rs)).get? (j + 1) =
          (updateRowAux (n + 1) i k v rs).get? j := rfl
      rw [h1, ih (n + 1) j i]
      have h2 : n + 1 + j = n + (j + 1) := by omega
      rw [h2]
      rfl

theorem updateRow_get? (rows : List QuoteRow) (i : Nat) (k : RowKey) (v : String) :
    (updateRow rows i k v).get? i = (rows.get? i).map (fun r => updateField r k v) := by
  unfold updateRow
  rw [updateRowAux_get? k v rows 0 i i]
  simp

theorem bestPrice_congr {rows1 rows2 : List QuoteRow} (d : String)
    (h : activeRows rows1 = activeRows rows2) : bestPrice d rows1 = bestPrice d rows2 := by
  unfold bestPrice pricesOf
  rw [h]

theorem bestLeadTime_congr {rows1 rows2 : List QuoteRow}
    (h : activeRows rows1 = activeRows rows2) : bestLeadTime rows1 = bestLeadTime rows2 := by
  unfold bestLeadTime leadTimesOf
  rw [h]

theorem bestValueIndex_congr {rows1 rows2 : List QuoteRow} (d : String)
    (h : activeRows rows1 = activeRows rows2) :
    bestValueIndex d rows1 = bestValueIndex d rows2 := by
  unfold bestValueIndex scoreOf byPriceOf byLeadTimeOf candidatesOf
  rw [h]

theorem activeRows_insert_inactive {r : QuoteRow}
    (hr : (jsTruthyStr r.supplier || jsTruthyStr r.price || jsTruthyId r.id) = false)
    (xs ys : List QuoteRow) : activeRows (xs ++ r :: ys) = activeRows (xs ++ ys) := by
  unfold activeRows
  simp [List.filter_append, List.filter_cons, hr]

theorem pricesOf_insert_unparsed {d : String} {r : QuoteRow}
    (hr : parseDecimal (getNormalizedAmount d r) = none)
    (xs ys : List QuoteRow) : pricesOf d (xs ++ r :: ys) = pricesOf d (xs ++ ys) := by
  unfold pricesOf activeRows
  by_cases hp : (jsTruthyStr r.supplier || jsTruthyStr r.price || jsTruthyId r.id) = true
  · simp [List.filter_append, List.filter_cons, hp, List.filterMap_append, List.filterMap_cons, hr]
  · simp only [Bool.not_eq_true] at hp
    simp [List.filter_append, List.filter_cons, hp]

/-- A saved quote row whose currency ("EUR") differs from the deal's base
currency ("USD"), carrying a pre-computed normalized amount `ab` and a
lead time of `lt` days — the shape of the spec's recomputation example. -/
def specQuote (i : Nat) (ab : String) (lt : Int) : QuoteRow :=
  { id := some i
    supplier := "S"
    price := ""
    currency := "EUR"
    amountBase := some ab
    baseCurrency := "USD"
    fxRate := some "1"
    fxDate := some "2024-01-01"
    leadTimeDays := ⟨lt, 0⟩
    moq := dZero }

/-- The spec's recomputation-consistency example: quotes with ids 1, 2, 3,
normalized amounts 100, 90, 80 and lead times 5, 10, 20 days. -/
def specQuotes : List QuoteRow := [specQuote 1 "100" 5, specQuote 2 "90" 10, specQuote 3 "80" 20]

/-- An active quote in the deal's base currency whose amount is exactly
zero. -/
def zRowA : QuoteRow :=
  { id := some 1
    supplier := "A"
    price := "0"
    currency := "USD"
    amountBase := none
    baseCurrency := "USD"
    fxRate := none
    fxDate := none
    leadTimeDays := ⟨5, 0⟩
    moq := dZero }

/-- An active quote in the deal's base currency with amount 5. -/
def zRowB : QuoteRow :=
  { id := some 2
    supplier := "B"
    price := "5"
    currency := "USD"
    amountBase := none
    baseCurrency := "USD"
    fxRate := none
    fxDate := none
    leadTimeDays := ⟨5, 0⟩
    moq := dZero }

/-- A saved foreign-currency quote with no cached normalized amount: the
unscored shape of §4.2. -/
def uRow : QuoteRow :=
  { id := some 9
    supplier := "U"
    price := "7"
    currency := "EUR"
    amountBase := none
    baseCurrency := "USD"
    fxRate := none
    fxDate := none
    leadTimeDays := ⟨3, 0⟩
    moq := dZero }

/-- A base-currency quote with a blank price but a cached normalized
amount. -/
def cRow : QuoteRow :=
  { id := some 4
    supplier := "C"
    price := ""
    currency := "USD"
    amountBase := some "50"
    baseCurrency := "USD"
    fxRate := some "1"
    fxDate := some "2024-01-01"
    leadTimeDays := ⟨2, 0⟩
    moq := dZero }

/-- C1, counterexample: the claim says the parse-failure outcome for
syntactically invalid text is a returned variant distinct from the
"no amount" outcome for empty input.  In the code both are the same
`null`: `parseDecimal("abc")` and `parseDecimal("")` return the identical
variant, so the two outcomes are not distinguishable by the returned
value. -/
theorem claim_C1_counterexample :
    parseDecimal (some "abc") = none ∧ parseDecimal (some "") = none ∧
    parseDecimal (some "abc") = parseDecimal (some "") := by
  exact ⟨by decide, by decide, by decide⟩

/-- C1, amended: for every input, empty or whitespace-only text yields the
`null` ("no amount") outcome, syntactically invalid numeric text yields
the same `null` outcome (the constructor throw is caught inside
`parseDecimal`, so neither outcome escapes as an exception), valid decimal
text yields the parsed amount, and a missing string yields `null`. -/
theorem claim_C1 (s : String) :
    (trimChars s.toList = [] → parseDecimal (some s) = none) ∧
    (trimChars s.toList ≠ [] → parseDecCore (trimChars s.toList) = none →
      parseDecimal (some s) = none) ∧
    (∀ dv, trimChars s.toList ≠ [] → parseDecCore (trimChars s.toList) = some dv →
      parseDecimal (some s) = some dv) ∧
    parseDecimal none = none := by
  refine ⟨?_, ?_, ?_, rfl⟩
  · intro h
    have h2 : trimChars s.data = [] := h
    simp [parseDecimal, List.isEmpty_iff, h2]
  · intro h hc
    have h2 : trimChars s.data ≠ [] := h
    have hc2 : parseDecCore (trimChars s.data) = none := hc
    simp [parseDecimal, List.isEmpty_iff, h2, hc2]
  · intro dv h hc
    have h2 : trimChars s.data ≠ [] := h
    have hc2 : parseDecCore (trimChars s.data) = some dv := hc
    simp [parseDecimal, List.isEmpty_iff, h2, hc2]

/-- C1, witness: the three parse outcomes at concrete inputs. -/
theorem claim_C1_witness :
    parseDecimal (some "   ") = none ∧ parseDecimal (some "x7") = none ∧
    parseDecimal (some "42") = some ⟨42, 0⟩ :=
  ⟨(claim_C1 "   ").1 (by decide),
   (claim_C1 "x7").2.1 (by decide) (by decide),
   (claim_C1 "42").2.2.1 ⟨42, 0⟩ (by decide) (by decide)⟩

/-- C2, counterexample: the claim says every active quote whose normalized
amount parses participates in best price, including one whose amount is
zero.  With an active zero-amount quote (A, "0") and a 5-amount quote
(B, "5"), the code's best price is 5, not the minimum 0: the zero quote is
filtered out by `value.greaterThan(0)`. -/
theorem claim_C2_counterexample :
    zRowA ∈ activeRows [zRowA, zRowB] ∧
    parseDecimal (getNormalizedAmount "USD" zRowA) = some ⟨0, 0⟩ ∧
    bestPrice "USD" [zRowA, zRowB] = some ⟨5, 0⟩ ∧
    ¬ Dec.le ⟨5, 0⟩ ⟨0, 0⟩ := by
  exact ⟨by decide, by decide, by decide, by decide⟩

/-- C2, amended: the best-price result is the minimum normalized amount
over exactly the active quotes whose normalized amount parses to a value
strictly greater than zero (zero-amount quotes are excluded); when no
quote has such a value the result is null. -/
theorem claim_C2 (d : String) (rows : List QuoteRow) :
    (bestPrice d rows = none ↔ pricesOf d rows = []) ∧
    (∀ p, p ∈ pricesOf d rows ↔ ∃ row ∈ activeRows rows,
      parseDecimal (getNormalizedAmount d row) = some p ∧ Dec.lt dZero p) ∧
    (∀ m, bestPrice d rows = some m →
      m ∈ pricesOf d rows ∧ ∀ p ∈ pricesOf d rows, Dec.le m p) := by
  refine ⟨?_, fun p => mem_pricesOf, ?_⟩
  · cases hp : pricesOf d rows <;> simp [bestPrice, hp]
  · intro m hm
    unfold bestPrice at hm
    cases hp : pricesOf d rows with
    | nil => rw [hp] at hm; cases hm
    | cons p ps =>
      rw [hp] at hm
      injection hm with hm
      have hfun : (fun (m v : Dec) => if Dec.lt v m then v else m) = jsMin := by
        funext a b
        rfl
      rw [hfun] at hm
      subst hm
      obtain ⟨hle, hall⟩ := foldMin_le ps p
      refine ⟨?_, ?_⟩
      · rcases foldMin_mem ps p with h | h
        · rw [h]; exact List.mem_cons_self _ _
        · exact List.mem_cons_of_mem _ h
      · intro x hx
        rcases List.mem_cons.mp hx with rfl | hx
        · exact hle
        · exact hall x hx

/-- C2, witness: on the one-quote list [B], the best price is B's
amount 5, which is the minimum of the participating prices. -/
theorem claim_C2_witness :
    (⟨5, 0⟩ : Dec) ∈ pricesOf "USD" [zRowB] ∧
    ∀ p ∈ pricesOf "USD" [zRowB], Dec.le ⟨5, 0⟩ p :=
  (claim_C2 "USD" [zRowB]).2.2 ⟨5, 0⟩ (by decide)

/-- C3: the best-value winner is the first-encountered candidate
minimizing price-rank plus lead-time-rank, where the ranks are 0-based
positions in the ascending stable sorts by normalized amount
(`byPriceOf`) and by lead time (`byLeadTimeOf`); and on the spec's
concrete example (ids 1, 2, 3 with normalized amounts 100, 90, 80 and
lead times 5, 10, 20) the best price is 80 (contributed by the quote with
id 3), the best lead time is 5 days (the quote with id 1), and the best
value is the first active row, the quote with id 1. -/
theorem claim_C3 :
    (∀ (d : String) (rows : List QuoteRow) (i : Nat), bestValueIndex d rows = some i →
      ∃ k c, (candidatesOf d rows).get? k = some c ∧ c.index = i ∧
        (∀ x ∈ candidatesOf d rows, scoreOf d rows c.index ≤ scoreOf d rows x.index) ∧
        (∀ x ∈ (candidatesOf d rows).take k, scoreOf d rows c.index < scoreOf d rows x.index)) ∧
    bestPrice "USD" specQuotes = some ⟨80, 0⟩ ∧
    parseDecimal (getNormalizedAmount "USD" (specQuote 3 "80" 20)) = some ⟨80, 0⟩ ∧
    bestLeadTime specQuotes = some ⟨5, 0⟩ ∧
    (specQuote 1 "100" 5).leadTimeDays = ⟨5, 0⟩ ∧
    bestValueIndex "USD" specQuotes = some 0 ∧
    (activeRows specQuotes).get? 0 = some (specQuote 1 "100" 5) ∧
    (specQuote 1 "100" 5).id = some 1 :=
  ⟨fun _ _ _ h => bestValueIndex_eq_some h, by decide, by decide, by decide, by decide,
   by decide, by decide, by decide⟩

/-- C3, witness: the general rank-sum characterization applied to the
spec's example, whose winner is the candidate at row index 0 (id 1). -/
theorem claim_C3_witness :
    ∃ k c, (candidatesOf "USD" specQuotes).get? k = some c ∧ c.index = 0 ∧
      (∀ x ∈ candidatesOf "USD" specQuotes,
        scoreOf "USD" specQuotes c.index ≤ scoreOf "USD" specQuotes x.index) ∧
      (∀ x ∈ (candidatesOf "USD" specQuotes).take k,
        scoreOf "USD" specQuotes c.index < scoreOf "USD" specQuotes x.index) :=
  claim_C3.1 "USD" specQuotes 0 (by decide)

/-- C4: for every quote in the deal's base currency that has an amount
(per §3 a saved quote's amount is non-empty decimal text), the normalized
amount is the raw amount string itself — the identical string, so no rate
lookup and no precision loss can occur. -/
theorem claim_C4 (d : String) (row : QuoteRow) (hcur : row.currency = d)
    (hamt : row.price ≠ "") : getNormalizedAmount d row = some row.price := by
  simp [getNormalizedAmount, jsTruthyStr, hcur, hamt]

/-- C4, witness: quote B is in the base currency with amount text "5",
and its normalized amount is exactly that string. -/
theorem claim_C4_witness : getNormalizedAmount "USD" zRowB = some "5" :=
  claim_C4 "USD" zRowB rfl (by decide)

/-- C5: a quote in a foreign currency with no cached `amountBase` has no
parseable normalized amount; inserting it anywhere leaves the best-price
result unchanged (in particular it is not treated as amount zero); any
best-value winner has a parseable positive normalized amount; hence such
a quote is never the best-value winner. -/
theorem claim_C5 (d : String) (r : QuoteRow) (hcur : r.currency ≠ d)
    (hab : r.amountBase = none) :
    parseDecimal (getNormalizedAmount d r) = none ∧
    (∀ xs ys, bestPrice d (xs ++ r :: ys) = bestPrice d (xs ++ ys)) ∧
    (∀ rows i, bestValueIndex d rows = some i →
      ∃ row a, (activeRows rows).get? i = some row ∧
        parseDecimal (getNormalizedAmount d row) = some a ∧ Dec.lt dZero a) ∧
    (∀ rows i, bestValueIndex d rows = some i → (activeRows rows).get? i ≠ some r) := by
  have hnorm : getNormalizedAmount d r = none := by
    simp [getNormalizedAmount, hcur, hab, jsTruthyOptStr]
  have hparse : parseDecimal (getNormalizedAmount d r) = none := by
    rw [hnorm]
    rfl
  refine ⟨hparse, ?_, ?_, ?_⟩
  · intro xs ys
    unfold bestPrice
    rw [pricesOf_insert_unparsed hparse]
  · intro rows i h
    exact bestValueIndex_winner h
  · intro rows i h hcontra
    obtain ⟨row, a, hget, hp, -⟩ := bestValueIndex_winner h
    rw [hget] at hcontra
    injection hcontra with hcontra
    rw [hcontra, hparse] at hp
    cases hp

/-- C5, witness: the concrete unscored quote U (EUR, no `amountBase`) has
no parseable normalized amount and does not change the best price of the
list it is inserted into. -/
theorem claim_C5_witness :
    parseDecimal (getNormalizedAmount "USD" uRow) = none ∧
    bestPrice "USD" ([] ++ uRow :: [zRowB]) = bestPrice "USD" ([] ++ [zRowB]) :=
  ⟨(claim_C5 "USD" uRow (by decide) rfl).1,
   (claim_C5 "USD" uRow (by decide) rfl).2.1 [] [zRowB]⟩

/-- C6: the best-lead-time result is null exactly when no active quote
has a lead time strictly greater than 0; the ranked lead times are
exactly the positive lead times of active rows (so `leadTimeDays == 0` is
excluded); any returned minimum is positive, is one of the ranked lead
times and is below them all; and when every active quote's lead time
equals 0 the result is null. -/
theorem claim_C6 (rows : List QuoteRow) :
    (bestLeadTime rows = none ↔ leadTimesOf rows = []) ∧
    (∀ v, v ∈ leadTimesOf rows ↔
      v ∈ (activeRows rows).map (fun r => r.leadTimeDays) ∧ Dec.lt dZero v) ∧
    (∀ m, bestLeadTime rows = some m →
      Dec.lt dZero m ∧ m ∈ leadTimesOf rows ∧ ∀ x ∈ leadTimesOf rows, Dec.le m x) ∧
    ((∀ r ∈ activeRows rows, Dec.eq r.leadTimeDays dZero) → bestLeadTime rows = none) := by
  have hmem : ∀ v, v ∈ leadTimesOf rows ↔
      v ∈ (activeRows rows).map (fun r => r.leadTimeDays) ∧ Dec.lt dZero v := by
    intro v
    unfold leadTimesOf
    simp [List.mem_filter]
  refine ⟨?_, hmem, ?_, ?_⟩
  · cases hl : leadTimesOf rows <;> simp [bestLeadTime, hl]
  · intro m hm
    unfold bestLeadTime at hm
    cases hl : leadTimesOf rows with
    | nil => rw [hl] at hm; cases hm
    | cons x xs =>
      rw [hl] at hm
      injection hm with hm
      subst hm
      obtain ⟨hle, hall⟩ := foldMin_le xs x
      have hmm : xs.foldl jsMin x ∈ x :: xs := by
        rcases foldMin_mem xs x with h | h
        · rw [h]; exact List.mem_cons_self _ _
        · exact List.mem_cons_of_mem _ h
      have hmm2 : xs.foldl jsMin x ∈ leadTimesOf rows := by
        rw [hl]
        exact hmm
      refine ⟨((hmem _).mp hmm2).2, hmm, ?_⟩
      intro y hy
      rcases List.mem_cons.mp hy with rfl | hy
      · exact hle
      · exact hall y hy
  · intro hall
    have hnil : leadTimesOf rows = [] := by
      unfold leadTimesOf
      rw [List.filter_eq_nil_iff]
      intro a ha
      rcases List.mem_map.mp ha with ⟨r, hr, rfl⟩
      simpa using Dec.not_lt_of_eq (hall r hr)
    simp [bestLeadTime, hnil]

/-- C6, witness: on the spec example the best lead time is 5 days, which
is positive, attained, and minimal among the ranked lead times. -/
theorem claim_C6_witness :
    Dec.lt dZero ⟨5, 0⟩ ∧ (⟨5, 0⟩ : Dec) ∈ leadTimesOf specQuotes ∧
    ∀ x ∈ leadTimesOf specQuotes, Dec.le ⟨5, 0⟩ x :=
  (claim_C6 specQuotes).2.2.1 ⟨5, 0⟩ (by decide)

/-- C7: updating a row's price or currency replaces that row by one whose
cached `amountBase`, `fxRate` and `fxDate` are all null, and whenever the
updated row's currency differs from the deal's base currency its
normalized amount no longer parses — the edited quote is unscored until
re-normalized. -/
theorem claim_C7 (rows : List QuoteRow) (i : Nat) (k : RowKey) (v : String)
    (row : QuoteRow) (hk : k = RowKey.price ∨ k = RowKey.currency)
    (hrow : rows.get? i = some row) :
    (updateRow rows i k v).get? i = some (updateField row k v) ∧
    (updateField row k v).amountBase = none ∧
    (updateField row k v).fxRate = none ∧
    (updateField row k v).fxDate = none ∧
    (∀ d, (updateField row k v).currency ≠ d →
      parseDecimal (getNormalizedAmount d (updateField row k v)) = none) := by
  have hget : (updateRow rows i k v).get? i = some (updateField row k v) := by
    rw [updateRow_get?, hrow]
    rfl
  have hfields : (updateField row k v).amountBase = none ∧
      (updateField row k v).fxRate = none ∧ (updateField row k v).fxDate = none := by
    rcases hk with rfl | rfl <;> simp [updateField]
  refine ⟨hget, hfields.1, hfields.2.1, hfields.2.2, ?_⟩
  intro d hd
  have hnorm : getNormalizedAmount d (updateField row k v) = none := by
    simp [getNormalizedAmount, hd, hfields.1, jsTruthyOptStr]
  rw [hnorm]
  rfl

/-- C7, witness: changing quote B's currency to "EUR" clears the cached
normalization fields and leaves the edited row without a parseable
normalized amount against base currency "USD". -/
theorem claim_C7_witness :
    (updateRow [zRowB] 0 RowKey.currency "EUR").get? 0 =
      some (updateField zRowB RowKey.currency "EUR") ∧
    (updateField zRowB RowKey.currency "EUR").amountBase = none ∧
    parseDecimal (getNormalizedAmount "USD" (updateField zRowB RowKey.currency "EUR")) = none :=
  ⟨(claim_C7 [zRowB] 0 RowKey.currency "EUR" zRowB (Or.inr rfl) rfl).1,
   (claim_C7 [zRowB] 0 RowKey.currency "EUR" zRowB (Or.inr rfl) rfl).2.1,
   (claim_C7 [zRowB] 0 RowKey.currency "EUR" zRowB (Or.inr rfl) rfl).2.2.2.2 "USD" (by decide)⟩

/-- C8: a draft row (no supplier, no price, no persisted id) is never in
the active set, inserting it anywhere changes none of the best-price,
best-lead-time or best-value results, and it contributes no id to the
list sent to the server comparison (whose `unscoredQuoteIds` can
therefore never mention it). -/
theorem claim_C8 (r : QuoteRow) (hs : r.supplier = "") (hp : r.price = "")
    (hid : r.id = none) :
    (∀ rows, r ∉ activeRows rows) ∧
    (∀ xs ys, activeRows (xs ++ r :: ys) = activeRows (xs ++ ys)) ∧
    (∀ d xs ys, bestPrice d (xs ++ r :: ys) = bestPrice d (xs ++ ys)) ∧
    (∀ xs ys, bestLeadTime (xs ++ r :: ys) = bestLeadTime (xs ++ ys)) ∧
    (∀ d xs ys, bestValueIndex d (xs ++ r :: ys) = bestValueIndex d (xs ++ ys)) ∧
    (∀ xs ys, quoteIdsOf (xs ++ r :: ys) = quoteIdsOf (xs ++ ys)) := by
  have hinactive : (jsTruthyStr r.supplier || jsTruthyStr r.price || jsTruthyId r.id) = false := by
    rw [hs, hp, hid]
    rfl
  have hact := fun xs ys => activeRows_insert_inactive hinactive xs ys
  refine ⟨?_, hact, ?_, ?_, ?_, ?_⟩
  · intro rows hmem
    unfold activeRows at hmem
    have := (List.mem_filter.mp hmem).2
    rw [hinactive] at this
    cases this
  · intro d xs ys
    exact bestPrice_congr d (hact xs ys)
  · intro xs ys
    exact bestLeadTime_congr (hact xs ys)
  · intro d xs ys
    exact bestValueIndex_congr d (hact xs ys)
  · intro xs ys
    unfold quoteIdsOf
    simp [List.filterMap_append, List.filterMap_cons, hid]

/-- C8, witness: the blank draft row is not active and does not perturb
the best price of a list containing quote B. -/
theorem claim_C8_witness :
    createBlankRow "USD" ∉ activeRows [createBlankRow "USD", zRowB] ∧
    bestPrice "USD" ([zRowB] ++ createBlankRow "USD" :: []) = bestPrice "USD" ([zRowB] ++ []) :=
  ⟨(claim_C8 (createBlankRow "USD") rfl rfl rfl).1 [createBlankRow "USD", zRowB],
   (claim_C8 (createBlankRow "USD") rfl rfl rfl).2.2.1 "USD" [zRowB] []⟩

/-- C9: the comparison computation is deterministic and stateless — it is
a pure function of the base currency and the quote snapshot, so two runs
on equal inputs produce equal best-price, best-lead-time and best-value
outputs. -/
theorem claim_C9 (d1 d2 : String) (rows1 rows2 : List QuoteRow) (hd : d1 = d2)
    (hrows : rows1 = rows2) : runComparison d1 rows1 = runComparison d2 rows2 := by
  subst hd
  subst hrows
  rfl

/-- C9, witness: two runs on the spec example coincide. -/
theorem claim_C9_witness : runComparison "USD" specQuotes = runComparison "USD" specQuotes :=
  claim_C9 "USD" "USD" specQuotes specQuotes rfl rfl

/-- C10: for a row in the deal's base currency whose amount field is the
empty string, normalization returns the cached `amountBase` (the
`row.price || row.amountBase` fallback), so a cached conversion still
provides the normalized amount. -/
theorem claim_C10 (d : String) (row : QuoteRow) (hcur : row.currency = d)
    (hblank : row.price = "") : getNormalizedAmount d row = row.amountBase := by
  simp [getNormalizedAmount, jsTruthyStr, hcur, hblank]

/-- C10, witness: quote C (base currency, blank price, cached "50") gets
normalized amount "50" from the cache. -/
theorem claim_C10_witness : getNormalizedAmount "USD" cRow = some "50" :=
  claim_C10 "USD" cRow rfl rfl

end QuoteStack
